import Mathlib

/-!
Shallow embedding of the reviewer-selection engine of `src/core/reviewer-selector.ts`
(class `ReviewerSelector`), together with the configuration data model of
`src/config.ts`, and proofs of the specified properties.

Modelling conventions:
* JavaScript `Record<string, number>` from-clauses are modelled as ordered
  association lists `List (String × Int)` (JS objects preserve insertion order
  for the non-numeric keys used as group names).
* The optional `{ from: ... }` wrappers around clauses are collapsed to the
  clause itself: in the source, `x?.from` is defined exactly when `x` is.
* `Math.random()` draws are modelled by an injected stream of natural numbers;
  `Math.floor(Math.random() * len)` becomes `stream k % len`, which ranges over
  the same set of indices `[0, len)`.  `executeSelection` gives each selection
  step its own stream (`rnd : Nat → Nat → Nat`); since every universally
  quantified theorem below holds for all streams, this re-indexing of the
  single global JS stream is observationally faithful.
* All functions are total Lean definitions, so every loop of the source is
  proved terminating by construction (the `while` loop of `pickRandom`
  terminates because `splice` shrinks the candidate list at every iteration).
-/

namespace ReviewerLottery

/-- A configured reviewer group (`Group` in `src/config.ts`). -/
structure Group where
  name : String
  usernames : List String
  deriving DecidableEq, Repr

/-- One `by_author_group` rule (`SelectionRule` in `src/config.ts`); the JS
field `from` is named `fromClause` because `from` is a Lean keyword. -/
structure SelectionRule where
  group : String
  fromClause : List (String × Int)
  deriving DecidableEq, Repr

/-- The `selection_rules` section (`SelectionRules` in `src/config.ts`). -/
structure SelectionRules where
  default : Option (List (String × Int))
  by_author_group : Option (List SelectionRule)
  non_group_members : Option (List (String × Int))
  deriving DecidableEq, Repr

/-- The action configuration (`Config` in `src/config.ts`). -/
structure Config where
  groups : List Group
  selection_rules : Option SelectionRules
  when_author_in_multiple_groups : Option String
  deriving DecidableEq, Repr

/-- The provenance record for the applied rule (`AppliedRule` in
`src/types/selection-types.ts`). -/
structure AppliedRule where
  type : String
  index : Option Nat
  rule : List (String × Int)
  mergedFromGroups : Option (List String)
  deriving DecidableEq, Repr

/-- One audit-trace record (`SelectionStep` in `src/types/selection-types.ts`). -/
structure SelectionStep where
  step : Nat
  description : String
  groupKey : String
  candidates : List String
  required : Int
  selected : List String
  deriving DecidableEq, Repr

/-- The selection result (`ReviewerSelectionResult` in
`src/types/selection-types.ts`). -/
structure ReviewerSelectionResult where
  selectedReviewers : List String
  appliedRule : Option AppliedRule
  process : List SelectionStep
  deriving DecidableEq, Repr

/-- `ReviewerSelector.getAuthorGroup`: the name of the first configured group
containing the author, if any. -/
def getAuthorGroup (cfg : Config) (author : String) : Option String :=
  (cfg.groups.find? (fun g => g.usernames.contains author)).map (fun g => g.name)

/-- `ReviewerSelector.getAuthorGroups`: names of all configured groups
containing the author, in declaration order. -/
def getAuthorGroups (cfg : Config) (author : String) : List String :=
  (cfg.groups.filter (fun g => g.usernames.contains author)).map (fun g => g.name)

/-- JS `string.startsWith("!")`: the first character is `'!'`.  Implemented on
the character list so that the kernel can evaluate it on literals. -/
def startsWithBang (s : String) : Bool :=
  match s.data with
  | [] => false
  | c :: _ => c = '!'

/-- JS `string.split(",")` on a character list: split at every comma, keeping
empty pieces (`"".split(",")` is `[""]`). -/
def splitComma : List Char → List (List Char)
  | [] => [[]]
  | c :: rest =>
    if c = ',' then [] :: splitComma rest
    else
      match splitComma rest with
      | [] => [[c]]
      | piece :: pieces => (c :: piece) :: pieces

/-- JS `string.trim()`: strip whitespace from both ends of a character list. -/
def trimChars (cs : List Char) : List Char :=
  ((cs.dropWhile Char.isWhitespace).reverse.dropWhile Char.isWhitespace).reverse

/-- `ReviewerSelector.resolveGroupSelection`: resolve a group-key token into a
list of group names.  The `_authorGroup` parameter is kept (and ignored)
exactly as in the source.  The JS string primitives
(`startsWith("!")`, `substring(1)`, `split(",")`, `trim()`) are modelled by the
executable character-list helpers above. -/
def resolveGroupSelection (cfg : Config) (groupKey : String)
    (_authorGroup : Option String) : List String :=
  if groupKey = "*" then
    cfg.groups.map (fun g => g.name)
  else if startsWithBang groupKey then
    let excludeGroups :=
      (splitComma (groupKey.data.drop 1)).map (fun piece => String.mk (trimChars piece))
    (cfg.groups.map (fun g => g.name)).filter (fun name => !excludeGroups.contains name)
  else
    [groupKey]

/-- `ReviewerSelector.getCandidatesFromGroups`: concatenate the member lists of
the named groups (unknown names contribute nothing).  The source performs no
deduplication. -/
def getCandidatesFromGroups (cfg : Config) : List String → List String
  | [] => []
  | groupName :: rest =>
    match cfg.groups.find? (fun g => g.name = groupName) with
    | some g => g.usernames ++ getCandidatesFromGroups cfg rest
    | none => getCandidatesFromGroups cfg rest

/-- JS object update `m[k] = v` on an association list: overwrite in place if
the key exists, otherwise append. -/
def setAssoc : List (String × Int) → String → Int → List (String × Int)
  | [], k, v => [(k, v)]
  | (k', v') :: rest, k, v =>
    if k' = k then (k', v) :: rest else (k', v') :: setAssoc rest k v

/-- The inner `Object.entries` loop of `ReviewerSelector.mergeRulesFromGroups`:
fold one resolved clause into the accumulated merged rule, taking the running
maximum per key
(`mergedRule[targetGroup] = Math.max(mergedRule[targetGroup] || 0, count)`;
`x || 0` equals `Option.getD x 0` here, since the only falsy number it turns
into `0` is `0` itself). -/
def mergeClause (acc fc : List (String × Int)) : List (String × Int) :=
  fc.foldl (fun m kv => setAssoc m kv.1 (max ((List.lookup kv.1 m).getD 0) kv.2)) acc

/-- `ReviewerSelector.mergeRulesFromGroups`: resolve each author group to its
clause (its `by_author_group` rule, else `default`) and merge the clauses with
`mergeClause`; returns the merged rule when non-empty, `null` otherwise.  When
`by_author_group` is absent it returns the `default` clause directly. -/
def mergeRulesFromGroups (cfg : Config) (authorGroups : List String) :
    Option (List (String × Int)) :=
  match cfg.selection_rules with
  | none => none
  | some rules =>
    match rules.by_author_group with
    | none => rules.default
    | some brs =>
      let merged := authorGroups.foldl (fun acc groupName =>
        match ((brs.find? (fun r => r.group = groupName)).map
          (fun r => r.fromClause)).orElse (fun _ => rules.default) with
        | some fc => mergeClause acc fc
        | none => acc) []
      if merged.length > 0 then some merged else none

/-- `ReviewerSelector.determineApplicableRule`: which from-clause applies to
the author.  Note: the source never consults
`config.when_author_in_multiple_groups`; authors in several groups always take
the merge path. -/
def determineApplicableRule (cfg : Config) (author : String)
    (authorGroup : Option String) : Option AppliedRule :=
  match cfg.selection_rules with
  | none => none
  | some rules =>
    let authorGroups := getAuthorGroups cfg author
    if authorGroups.length = 0 then
      let fromClause := rules.non_group_members.orElse (fun _ => rules.default)
      let ruleType :=
        if rules.non_group_members.isSome then "non_group_members" else "default"
      match fromClause with
      | none => none
      | some fc => some ⟨ruleType, none, fc, none⟩
    else if authorGroups.length > 1 then
      match mergeRulesFromGroups cfg authorGroups with
      | none => none
      | some merged => some ⟨"merged_groups", none, merged, some authorGroups⟩
    else
      let applicableRule : Option SelectionRule :=
        match rules.by_author_group with
        | some brs => brs.find? (fun r => authorGroup == some r.group)
        | none => none
      let fromClause :=
        (applicableRule.map (fun r => r.fromClause)).orElse (fun _ => rules.default)
      let ruleType := if applicableRule.isSome then "by_author_group" else "default"
      let ruleIndex :=
        match applicableRule, rules.by_author_group with
        | some _, some brs => some (brs.findIdx (fun r => authorGroup == some r.group))
        | _, _ => none
      match fromClause with
      | none => none
      | some fc => some ⟨ruleType, ruleIndex, fc, none⟩

/-- The `while` loop of `ReviewerSelector.pickRandom`: repeatedly draw an index
into the remaining candidate list, remove the chosen element, and record it if
not already picked, until `n` picks are made or candidates are exhausted. -/
def pickRandomGo (rnd : Nat → Nat) (n : Int) (k : Nat) (candidates : List String)
    (picks : List String) : List String :=
  if h : (picks.length : Int) < n ∧ candidates.length ≠ 0 then
    have hi : rnd k % candidates.length < candidates.length :=
      Nat.mod_lt _ (Nat.pos_of_ne_zero h.2)
    let pick := candidates.get ⟨rnd k % candidates.length, hi⟩
    pickRandomGo rnd n (k + 1) (candidates.eraseIdx (rnd k % candidates.length))
      (if pick ∈ picks then picks else picks ++ [pick])
  else
    picks
termination_by candidates.length
decreasing_by
  simp_wf
  have := List.length_eraseIdx_add_one hi
  omega

/-- `ReviewerSelector.pickRandom`: filter out ignored items, then sample
without replacement. -/
def pickRandom (rnd : Nat → Nat) (items : List String) (n : Int)
    (ignore : List String) : List String :=
  pickRandomGo rnd n 0 (items.filter (fun item => !ignore.contains item)) []

/-- The loop body of `ReviewerSelector.executeSelection`, one from-clause entry
at a time.  Returns the final accumulated selection and the trace steps emitted
from this point on (the source appends them to a mutable `process` array). -/
def executeSelectionGo (cfg : Config) (rnd : Nat → Nat → Nat) (author : String)
    (authorGroup : Option String) (existingReviewers : List String) :
    List (String × Int) → Nat → List String → List String × List SelectionStep
  | [], _, selected => (selected, [])
  | (groupKey, count) :: rest, stepCounter, selected =>
    if count ≤ 0 then
      executeSelectionGo cfg rnd author authorGroup existingReviewers rest
        stepCounter selected
    else
      let targetGroups := resolveGroupSelection cfg groupKey authorGroup
      let candidates := getCandidatesFromGroups cfg targetGroups
      let existingFromGroups :=
        existingReviewers.filter (fun reviewer => candidates.contains reviewer)
      let remainingNeeded : Int := max 0 (count - existingFromGroups.length)
      let picks := pickRandom (rnd stepCounter) candidates remainingNeeded
        (selected ++ author :: existingReviewers)
      let stepRecord : SelectionStep :=
        { step := stepCounter
          description := "Select " ++ toString remainingNeeded ++ " from " ++
            groupKey ++ " (" ++ toString picks.length ++ " selected)"
          groupKey := groupKey
          candidates := candidates
          required := remainingNeeded
          selected := picks }
      let result := executeSelectionGo cfg rnd author authorGroup existingReviewers
        rest (stepCounter + 1) (selected ++ picks)
      (result.1, stepRecord :: result.2)

/-- `ReviewerSelector.executeSelection`: process the from-clause entries in
order, starting with step counter 1 and no prior picks. -/
def executeSelection (cfg : Config) (rnd : Nat → Nat → Nat)
    (fromClause : List (String × Int)) (author : String)
    (authorGroup : Option String) (existingReviewers : List String) :
    List String × List SelectionStep :=
  executeSelectionGo cfg rnd author authorGroup existingReviewers fromClause 1 []

/-- `ReviewerSelector.selectReviewers`: the top-level selection entry point. -/
def selectReviewers (cfg : Config) (rnd : Nat → Nat → Nat) (author : String)
    (existingReviewers : List String) : ReviewerSelectionResult :=
  let authorGroup := getAuthorGroup cfg author
  match determineApplicableRule cfg author authorGroup with
  | none => ⟨[], none, []⟩
  | some appliedRule =>
    let result := executeSelection cfg rnd appliedRule.rule author authorGroup
      existingReviewers
    ⟨result.1, some appliedRule, result.2⟩


/-! ## Sampler lemmas -/

theorem pickRandomGo_mem_nodup (rnd : Nat → Nat) (n : Int) :
    ∀ (candidates : List String) (k : Nat) (picks : List String),
      (∀ x ∈ pickRandomGo rnd n k candidates picks, x ∈ picks ∨ x ∈ candidates) ∧
      (picks.Nodup → (pickRandomGo rnd n k candidates picks).Nodup) := by
  intro candidates k picks
  induction k, candidates, picks using pickRandomGo.induct rnd n with
  | case1 k candidates picks h hi pick ih =>
    rw [pickRandomGo, dif_pos h]
    dsimp only
    by_cases hp : pick ∈ picks
    · simp only [hp, if_true, dif_pos] at ih ⊢
      obtain ⟨ihm, ihn⟩ := ih
      refine ⟨fun x hx => ?_, ihn⟩
      rcases ihm x hx with hx' | hx'
      · exact Or.inl hx'
      · exact Or.inr ((candidates.eraseIdx_sublist _).subset hx')
    · simp only [hp, if_false, dif_neg, not_false_iff] at ih ⊢
      obtain ⟨ihm, ihn⟩ := ih
      constructor
      · intro x hx
        rcases ihm x hx with hx' | hx'
        · rcases List.mem_append.mp hx' with h1 | h1
          · exact Or.inl h1
          · have hxp : x = pick := by simpa using h1
            exact Or.inr (hxp ▸ candidates.get_mem _ _)
        · exact Or.inr ((candidates.eraseIdx_sublist _).subset hx')
      · intro hnd
        apply ihn
        simp [List.nodup_append, hnd, hp]
  | case2 k candidates picks h =>
    rw [pickRandomGo, dif_neg h]
    exact ⟨fun x hx => Or.inl hx, id⟩

theorem pickRandomGo_length (rnd : Nat → Nat) (n : Int) :
    ∀ (candidates : List String) (k : Nat) (picks : List String),
      (picks.length : Int) ≤ n →
      ((pickRandomGo rnd n k candidates picks).length : Int) =
        min n (picks.length + ((candidates.toFinset \ picks.toFinset).card : Int)) := by
  intro candidates k picks
  induction k, candidates, picks using pickRandomGo.induct rnd n with
  | case1 k candidates picks h hi pick ih =>
    intro hle
    rw [pickRandomGo, dif_pos h]
    dsimp only
    have hperm : List.Perm candidates (pick :: candidates.eraseIdx (rnd k % candidates.length)) :=
      (List.perm_cons_erase (candidates.get_mem _ _)).trans
        (List.Perm.cons _ (List.erase_getElem hi))
    have hcf : candidates.toFinset =
        insert pick (candidates.eraseIdx (rnd k % candidates.length)).toFinset := by
      rw [List.toFinset_eq_of_perm _ _ hperm, List.toFinset_cons]
    by_cases hp : pick ∈ picks
    · simp only [hp, if_true, dif_pos] at ih ⊢
      rw [ih hle, hcf, Finset.insert_sdiff_of_mem _ (List.mem_toFinset.mpr hp)]
    · simp only [hp, if_false, dif_neg, not_false_iff] at ih ⊢
      have hlen' : (((picks ++ [pick]).length : Nat) : Int) ≤ n := by
        simp only [List.length_append, List.length_cons, List.length_nil]
        push_cast
        omega
      rw [ih hlen']
      have h1 : candidates.toFinset \ picks.toFinset =
          insert pick ((candidates.eraseIdx (rnd k % candidates.length)).toFinset \ picks.toFinset) := by
        rw [hcf, Finset.insert_sdiff_of_not_mem _ (by simpa using hp)]
      have h2 : (candidates.eraseIdx (rnd k % candidates.length)).toFinset \ (picks ++ [pick]).toFinset =
          ((candidates.eraseIdx (rnd k % candidates.length)).toFinset \ picks.toFinset).erase pick := by
        ext x
        simp only [Finset.mem_sdiff, List.mem_toFinset, List.mem_append, List.mem_singleton,
          Finset.mem_erase]
        tauto
      have h3 : (insert pick ((candidates.eraseIdx (rnd k % candidates.length)).toFinset \ picks.toFinset)).card =
          (((candidates.eraseIdx (rnd k % candidates.length)).toFinset \ picks.toFinset).erase pick).card + 1 := by
        have e1 : insert pick ((candidates.eraseIdx (rnd k % candidates.length)).toFinset \ picks.toFinset) =
            insert pick (((candidates.eraseIdx (rnd k % candidates.length)).toFinset \ picks.toFinset).erase pick) := by
          ext x
          simp only [Finset.mem_insert, Finset.mem_erase]
          tauto
        rw [e1, Finset.card_insert_of_not_mem (Finset.not_mem_erase _ _)]
      rw [h1, h2, h3]
      congr 1
      simp only [List.length_append, List.length_cons, List.length_nil]
      push_cast
      ring
  | case2 k candidates picks h =>
    intro hle
    rw [pickRandomGo, dif_neg h]
    rcases not_and_or.mp h with h1 | h2
    · have heq : (picks.length : Int) = n := le_antisymm hle (not_lt.mp h1)
      have hc : (0 : Int) ≤ ((candidates.toFinset \ picks.toFinset).card : Int) :=
        Int.natCast_nonneg _
      omega
    · have hc : candidates = [] := List.length_eq_zero.mp (not_ne_iff.mp h2)
      subst hc
      simp only [List.toFinset_nil, Finset.empty_sdiff, Finset.card_empty, Nat.cast_zero,
        add_zero]
      exact (min_eq_right hle).symm

/-! ## Selection-engine trace lemmas -/

/-- All fields of one emitted trace step are as `executeSelection` computes
them: the candidate pool comes from the step's group key, the required count is
the positive clause count minus the existing reviewers already in the pool
(clamped at zero), and the picks are a `pickRandom` draw from the pool that
excludes the selection prefix, the author and the existing reviewers. -/
def stepOk (cfg : Config) (rnd : Nat → Nat → Nat) (author : String)
    (authorGroup : Option String) (existing : List String)
    (entries : List (String × Int)) (selBefore : List String)
    (s : SelectionStep) : Prop :=
  s.candidates = getCandidatesFromGroups cfg (resolveGroupSelection cfg s.groupKey authorGroup) ∧
  (∃ count, (s.groupKey, count) ∈ entries ∧ 0 < count ∧
    s.required = max 0 (count -
      (existing.filter (fun reviewer => s.candidates.contains reviewer)).length)) ∧
  ∃ j, s.selected = pickRandom (rnd j) s.candidates s.required
    (selBefore ++ author :: existing)

/-- `stepOk` holds of every step of the trace, each relative to the selection
prefix accumulated before it. -/
def stepsOk (cfg : Config) (rnd : Nat → Nat → Nat) (author : String)
    (authorGroup : Option String) (existing : List String)
    (entries : List (String × Int)) : List String → List SelectionStep → Prop
  | _, [] => True
  | selBefore, s :: rest =>
    stepOk cfg rnd author authorGroup existing entries selBefore s ∧
    stepsOk cfg rnd author authorGroup existing entries (selBefore ++ s.selected) rest

theorem stepOk_mono {cfg : Config} {rnd : Nat → Nat → Nat} {author : String}
    {authorGroup : Option String} {existing selBefore : List String}
    {rest : List (String × Int)} {s : SelectionStep} (kv : String × Int)
    (h : stepOk cfg rnd author authorGroup existing rest selBefore s) :
    stepOk cfg rnd author authorGroup existing (kv :: rest) selBefore s := by
  obtain ⟨h1, ⟨c, hc1, hc2, hc3⟩, h3⟩ := h
  exact ⟨h1, ⟨c, List.mem_cons_of_mem _ hc1, hc2, hc3⟩, h3⟩

theorem stepsOk_mono {cfg : Config} {rnd : Nat → Nat → Nat} {author : String}
    {authorGroup : Option String} {existing : List String}
    {rest : List (String × Int)} (kv : String × Int) :
    ∀ {selBefore : List String} {steps : List SelectionStep},
      stepsOk cfg rnd author authorGroup existing rest selBefore steps →
      stepsOk cfg rnd author authorGroup existing (kv :: rest) selBefore steps := by
  intro selBefore steps
  induction steps generalizing selBefore with
  | nil => intro h; exact h
  | cons s rest' ih =>
    intro h
    exact ⟨stepOk_mono kv h.1, ih h.2⟩

/-- Master trace lemma for `executeSelectionGo`: the returned selection is the
initial accumulator followed by the concatenation of all step picks, and every
step satisfies `stepOk` relative to the prefix accumulated before it. -/
theorem executeSelectionGo_spec (cfg : Config) (rnd : Nat → Nat → Nat)
    (author : String) (authorGroup : Option String) (existing : List String) :
    ∀ (entries : List (String × Int)) (ctr : Nat) (sel : List String),
      (executeSelectionGo cfg rnd author authorGroup existing entries ctr sel).1 =
        sel ++ (((executeSelectionGo cfg rnd author authorGroup existing entries ctr sel).2).map
          (fun s => s.selected)).flatten ∧
      stepsOk cfg rnd author authorGroup existing entries sel
        (executeSelectionGo cfg rnd author authorGroup existing entries ctr sel).2 := by
  intro entries
  induction entries with
  | nil =>
    intro ctr sel
    simp [executeSelectionGo, stepsOk]
  | cons kv rest ih =>
    obtain ⟨key, count⟩ := kv
    intro ctr sel
    simp only [executeSelectionGo]
    split
    next hc =>
      exact ⟨(ih ctr sel).1, stepsOk_mono _ (ih ctr sel).2⟩
    next hc =>
      dsimp only
      obtain ⟨ih1, ih2⟩ :=
        ih (ctr + 1)
          (sel ++ pickRandom (rnd ctr)
            (getCandidatesFromGroups cfg (resolveGroupSelection cfg key authorGroup))
            (max 0 (count - ((existing.filter (fun reviewer =>
              (getCandidatesFromGroups cfg (resolveGroupSelection cfg key authorGroup)).contains
                reviewer)).length : Int)))
            (sel ++ author :: existing))
      constructor
      · rw [ih1]
        simp [List.append_assoc]
      · refine ⟨⟨rfl, ⟨count, List.mem_cons_self _ _, lt_of_not_le hc, rfl⟩, ⟨ctr, rfl⟩⟩, ?_⟩
        exact stepsOk_mono _ ih2


theorem pickRandom_mem {rnd : Nat → Nat} {items : List String} {n : Int}
    {ignore : List String} {x : String}
    (hx : x ∈ pickRandom rnd items n ignore) : x ∈ items ∧ x ∉ ignore := by
  have h := (pickRandomGo_mem_nodup rnd n
    (items.filter (fun item => !ignore.contains item)) 0 []).1 x hx
  rcases h with h | h
  · simp at h
  · have hm := List.mem_filter.mp h
    refine ⟨hm.1, ?_⟩
    simpa using hm.2

theorem pickRandom_nodup (rnd : Nat → Nat) (items : List String) (n : Int)
    (ignore : List String) : (pickRandom rnd items n ignore).Nodup :=
  (pickRandomGo_mem_nodup rnd n
    (items.filter (fun item => !ignore.contains item)) 0 []).2 List.nodup_nil

theorem pickRandom_length_of_nonneg (rnd : Nat → Nat) (items : List String)
    (n : Int) (ignore : List String) (hn : 0 ≤ n) :
    ((pickRandom rnd items n ignore).length : Int) =
      min n (((items.filter (fun item => !ignore.contains item)).toFinset.card : Int)) := by
  have h := pickRandomGo_length rnd n
    (items.filter (fun item => !ignore.contains item)) 0 [] (by simpa using hn)
  rw [pickRandom]
  simpa using h

theorem pickRandom_nonpos (rnd : Nat → Nat) (items : List String) (n : Int)
    (ignore : List String) (hn : n ≤ 0) : pickRandom rnd items n ignore = [] := by
  rw [pickRandom, pickRandomGo, dif_neg]
  intro hcon
  have := hcon.1
  simp only [List.length_nil, Nat.cast_zero] at this
  omega

/-- C2: `pickRandom(pool, n, exclude)` is a total function (the loop
terminates), returns the empty list when `n ≤ 0`, and when `n > 0` returns
exactly `min n D` items, where `D` is the number of distinct pool elements not
in the exclusion list. -/
theorem pickRandom_terminates_min_count (rnd : Nat → Nat) (items : List String)
    (n : Int) (ignore : List String) :
    (n ≤ 0 → pickRandom rnd items n ignore = []) ∧
    (0 < n → ((pickRandom rnd items n ignore).length : Int) =
      min n (((items.filter (fun item => !ignore.contains item)).toFinset.card : Int))) :=
  ⟨pickRandom_nonpos rnd items n ignore,
   fun h => pickRandom_length_of_nonneg rnd items n ignore (le_of_lt h)⟩

/-- Witness for C2 at concrete inputs: `n = -1` gives `[]`; `n = 5` on a pool
with two distinct non-excluded elements gives exactly two picks. -/
theorem pickRandom_terminates_min_count_witness :
    pickRandom (fun _ => 0) ["a", "b", "a", "c"] (-1) ["b"] = [] ∧
    ((pickRandom (fun _ => 0) ["a", "b", "a", "c"] 5 ["b"]).length : Int) =
      min 5 ((((["a", "b", "a", "c"].filter
        (fun item => !(["b"].contains item))).toFinset.card : Nat) : Int)) :=
  ⟨(pickRandom_terminates_min_count (fun _ => 0) ["a", "b", "a", "c"] (-1) ["b"]).1 (by decide),
   (pickRandom_terminates_min_count (fun _ => 0) ["a", "b", "a", "c"] 5 ["b"]).2 (by decide)⟩

theorem executeSelectionGo_skip (cfg : Config) (rnd : Nat → Nat → Nat)
    (author : String) (authorGroup : Option String) (existing : List String)
    (key : String) (count : Int) (rest : List (String × Int)) (ctr : Nat)
    (sel : List String) (hc : count ≤ 0) :
    executeSelectionGo cfg rnd author authorGroup existing ((key, count) :: rest) ctr sel =
      executeSelectionGo cfg rnd author authorGroup existing rest ctr sel := by
  simp only [executeSelectionGo, if_pos hc]

theorem executeSelectionGo_skip_middle (cfg : Config) (rnd : Nat → Nat → Nat)
    (author : String) (authorGroup : Option String) (existing : List String)
    (key : String) (count : Int) (ys : List (String × Int)) (hc : count ≤ 0) :
    ∀ (xs : List (String × Int)) (ctr : Nat) (sel : List String),
      executeSelectionGo cfg rnd author authorGroup existing (xs ++ (key, count) :: ys) ctr sel =
        executeSelectionGo cfg rnd author authorGroup existing (xs ++ ys) ctr sel := by
  intro xs
  induction xs with
  | nil =>
    intro ctr sel
    exact executeSelectionGo_skip cfg rnd author authorGroup existing key count ys ctr sel hc
  | cons x xs ih =>
    obtain ⟨xk, xc⟩ := x
    intro ctr sel
    by_cases hxc : xc ≤ 0
    · simp only [List.cons_append, executeSelectionGo, if_pos hxc]
      exact ih ctr sel
    · simp only [List.cons_append, executeSelectionGo, if_neg hxc, List.append_eq]
      rw [ih]

/-- C9: a from-clause entry whose count is `≤ 0` contributes nothing at all:
deleting it from the clause leaves both the selection and the audit trace
unchanged. -/
theorem executeSelection_skips_nonpositive (cfg : Config) (rnd : Nat → Nat → Nat)
    (author : String) (authorGroup : Option String) (existing : List String)
    (xs ys : List (String × Int)) (key : String) (count : Int) (hc : count ≤ 0) :
    executeSelection cfg rnd (xs ++ (key, count) :: ys) author authorGroup existing =
      executeSelection cfg rnd (xs ++ ys) author authorGroup existing := by
  simp only [executeSelection]
  exact executeSelectionGo_skip_middle cfg rnd author authorGroup existing key count ys hc xs 1 []


theorem stepsOk_accum (cfg : Config) (rnd : Nat → Nat → Nat) (author : String)
    (authorGroup : Option String) (existing : List String)
    (entries : List (String × Int)) :
    ∀ (steps : List SelectionStep) (selB : List String),
      stepsOk cfg rnd author authorGroup existing entries selB steps →
      selB.Nodup → author ∉ selB → (∀ e, e ∈ existing → e ∉ selB) →
      ((selB ++ (steps.map (fun s => s.selected)).flatten).Nodup ∧
        author ∉ selB ++ (steps.map (fun s => s.selected)).flatten ∧
        ∀ e, e ∈ existing → e ∉ selB ++ (steps.map (fun s => s.selected)).flatten) := by
  intro steps
  induction steps with
  | nil =>
    intro selB _ h1 h2 h3
    simp only [List.map_nil, List.flatten_nil, List.append_nil]
    exact ⟨h1, h2, h3⟩
  | cons s rest ih =>
    intro selB h h1 h2 h3
    obtain ⟨⟨_, _, j, hsel⟩, hrest⟩ := h
    have hpicksnd : s.selected.Nodup := by
      rw [hsel]; exact pickRandom_nodup _ _ _ _
    have hpickdis : ∀ x ∈ s.selected, x ∉ selB ∧ x ≠ author ∧ x ∉ existing := by
      intro x hx
      rw [hsel] at hx
      have hni := (pickRandom_mem hx).2
      simp only [List.mem_append, List.mem_cons, not_or] at hni
      exact ⟨hni.1, hni.2.1, hni.2.2⟩
    have h1' : (selB ++ s.selected).Nodup := by
      rw [List.nodup_append]
      exact ⟨h1, hpicksnd, fun a ha ha' => (hpickdis a ha').1 ha⟩
    have h2' : author ∉ selB ++ s.selected := by
      simp only [List.mem_append, not_or]
      exact ⟨h2, fun hx => (hpickdis author hx).2.1 rfl⟩
    have h3' : ∀ e, e ∈ existing → e ∉ selB ++ s.selected := by
      intro e he
      simp only [List.mem_append, not_or]
      exact ⟨h3 e he, fun hx => (hpickdis e hx).2.2 he⟩
    have hrec := ih (selB ++ s.selected) hrest h1' h2' h3'
    simpa [List.append_assoc] using hrec

theorem stepsOk_mem_pick (cfg : Config) (rnd : Nat → Nat → Nat) (author : String)
    (authorGroup : Option String) (existing : List String)
    (entries : List (String × Int)) :
    ∀ (steps : List SelectionStep) (selB : List String),
      stepsOk cfg rnd author authorGroup existing entries selB steps →
      ∀ s ∈ steps,
        s.candidates = getCandidatesFromGroups cfg (resolveGroupSelection cfg s.groupKey authorGroup) ∧
        (∃ count, (s.groupKey, count) ∈ entries ∧ 0 < count ∧
          s.required = max 0 (count -
            ((existing.filter (fun reviewer => s.candidates.contains reviewer)).length : Int))) ∧
        ∃ j ign, s.selected = pickRandom (rnd j) s.candidates s.required
          (ign ++ author :: existing) := by
  intro steps
  induction steps with
  | nil => intro selB _ s hs; exact absurd hs (List.not_mem_nil s)
  | cons t rest ih =>
    intro selB h s hs
    obtain ⟨⟨hc, hcount, j, hsel⟩, hrest⟩ := h
    rcases List.mem_cons.mp hs with rfl | hs'
    · exact ⟨hc, hcount, j, selB, hsel⟩
    · exact ih (selB ++ t.selected) hrest s hs'

theorem executeSelection_no_self_no_existing_no_dup (cfg : Config)
    (rnd : Nat → Nat → Nat) (fromClause : List (String × Int)) (author : String)
    (authorGroup : Option String) (existing : List String) :
    author ∉ (executeSelection cfg rnd fromClause author authorGroup existing).1 ∧
    (executeSelection cfg rnd fromClause author authorGroup existing).1.Disjoint existing ∧
    (executeSelection cfg rnd fromClause author authorGroup existing).1.Nodup := by
  obtain ⟨h1, h2⟩ := executeSelectionGo_spec cfg rnd author authorGroup existing fromClause 1 []
  rw [executeSelection, h1]
  have hacc := stepsOk_accum cfg rnd author authorGroup existing fromClause
    (executeSelectionGo cfg rnd author authorGroup existing fromClause 1 []).2 [] h2
    List.nodup_nil (List.not_mem_nil author) (fun e _ => List.not_mem_nil e)
  refine ⟨hacc.2.1, ?_, hacc.1⟩
  intro a ha hae
  exact hacc.2.2 a hae ha

/-- C1: `selectReviewers` never selects the author, never selects anyone
already in `existingReviewers`, and returns a duplicate-free list. -/
theorem selectReviewers_no_self_no_existing_no_dup (cfg : Config)
    (rnd : Nat → Nat → Nat) (author : String) (existingReviewers : List String) :
    author ∉ (selectReviewers cfg rnd author existingReviewers).selectedReviewers ∧
    (selectReviewers cfg rnd author existingReviewers).selectedReviewers.Disjoint
      existingReviewers ∧
    (selectReviewers cfg rnd author existingReviewers).selectedReviewers.Nodup := by
  rw [selectReviewers]
  cases hr : determineApplicableRule cfg author (getAuthorGroup cfg author) with
  | none => simp [List.Disjoint]
  | some ar =>
    exact executeSelection_no_self_no_existing_no_dup cfg rnd ar.rule author
      (getAuthorGroup cfg author) existingReviewers

/-- C10: the returned `selectedReviewers` list is exactly the in-order
concatenation of the `selected` lists of the trace steps, and every pick in a
step is drawn from that step's recorded candidate pool. -/
theorem selectReviewers_trace_consistent (cfg : Config) (rnd : Nat → Nat → Nat)
    (author : String) (existingReviewers : List String) :
    (selectReviewers cfg rnd author existingReviewers).selectedReviewers =
      (((selectReviewers cfg rnd author existingReviewers).process).map
        (fun s => s.selected)).flatten ∧
    ((selectReviewers cfg rnd author existingReviewers).process).all
      (fun s => s.selected.all (fun x => s.candidates.contains x)) = true := by
  rw [selectReviewers]
  cases hr : determineApplicableRule cfg author (getAuthorGroup cfg author) with
  | none => simp
  | some ar =>
    obtain ⟨h1, h2⟩ := executeSelectionGo_spec cfg rnd author (getAuthorGroup cfg author)
      existingReviewers ar.rule 1 []
    constructor
    · simpa [executeSelection] using h1
    · rw [List.all_eq_true]
      intro s hs
      obtain ⟨-, -, j, ign, hsel⟩ := stepsOk_mem_pick cfg rnd author
        (getAuthorGroup cfg author) existingReviewers ar.rule _ [] h2 s hs
      rw [List.all_eq_true]
      intro x hx
      rw [hsel] at hx
      have hxc := (pickRandom_mem hx).1
      exact List.elem_eq_true_of_mem hxc

theorem stepsOk_get (cfg : Config) (rnd : Nat → Nat → Nat) (author : String)
    (authorGroup : Option String) (existing : List String)
    (entries : List (String × Int)) :
    ∀ (steps : List SelectionStep) (selB : List String),
      stepsOk cfg rnd author authorGroup existing entries selB steps →
      ∀ (i : Nat) (hlt : i < steps.length),
        stepOk cfg rnd author authorGroup existing entries
          (selB ++ (((steps.take i).map (fun s => s.selected)).flatten))
          (steps.get ⟨i, hlt⟩) := by
  intro steps
  induction steps with
  | nil => intro selB _ i hlt; exact absurd hlt (by simp)
  | cons s rest ih =>
    intro selB h i hlt
    match i with
    | 0 => simpa using h.1
    | Nat.succ i =>
      have hrec := ih (selB ++ s.selected) h.2 i (by simpa using hlt)
      simpa [List.append_assoc] using hrec

/-- C6: every trace step of `executeSelection` corresponds to a positive-count
clause entry; its `required` field is the entry count minus the number of
existing reviewers in the step's candidate pool (clamped at zero), and the
number of reviewers actually drawn is `required` capped by the number of
distinct available candidates; when the existing reviewers already satisfy
every entry, the overall selection is empty. -/
theorem executeSelection_step_counts (cfg : Config) (rnd : Nat → Nat → Nat)
    (fromClause : List (String × Int)) (author : String)
    (authorGroup : Option String) (existing : List String) :
    (∀ (i : Nat)
      (hlt : i < (executeSelection cfg rnd fromClause author authorGroup existing).2.length),
      ∃ count,
        (((executeSelection cfg rnd fromClause author authorGroup existing).2.get
          ⟨i, hlt⟩).groupKey, count) ∈ fromClause ∧
        0 < count ∧
        ((executeSelection cfg rnd fromClause author authorGroup existing).2.get
          ⟨i, hlt⟩).required =
          max 0 (count - ((existing.filter (fun reviewer =>
            ((executeSelection cfg rnd fromClause author authorGroup existing).2.get
              ⟨i, hlt⟩).candidates.contains reviewer)).length : Int)) ∧
        ((((executeSelection cfg rnd fromClause author authorGroup existing).2.get
          ⟨i, hlt⟩).selected.length : Int) =
          min ((executeSelection cfg rnd fromClause author authorGroup existing).2.get
              ⟨i, hlt⟩).required
            (((((executeSelection cfg rnd fromClause author authorGroup existing).2.get
              ⟨i, hlt⟩).candidates.filter (fun x =>
                !(((((executeSelection cfg rnd fromClause author authorGroup
                  existing).2.take i).map (fun t => t.selected)).flatten ++
                    author :: existing).contains x))).toFinset.card : Int)))) ∧
    ((∀ kv ∈ fromClause, kv.2 ≤ ((existing.filter (fun reviewer =>
        (getCandidatesFromGroups cfg
          (resolveGroupSelection cfg kv.1 authorGroup)).contains reviewer)).length : Int)) →
      (executeSelection cfg rnd fromClause author authorGroup existing).1 = []) := by
  obtain ⟨hsel, hsteps⟩ := executeSelectionGo_spec cfg rnd author authorGroup existing
    fromClause 1 []
  rw [show executeSelection cfg rnd fromClause author authorGroup existing =
    executeSelectionGo cfg rnd author authorGroup existing fromClause 1 [] from rfl]
  constructor
  · intro i hlt
    have hso := stepsOk_get cfg rnd author authorGroup existing fromClause _ [] hsteps i hlt
    obtain ⟨hc, ⟨count, hmem, hpos, hreq⟩, j, hpick⟩ := hso
    refine ⟨count, hmem, hpos, hreq, ?_⟩
    rw [hpick]
    have hnn : (0 : Int) ≤ ((executeSelectionGo cfg rnd author authorGroup existing
        fromClause 1 []).2.get ⟨i, hlt⟩).required := by
      rw [hreq]; exact le_max_left 0 _
    rw [pickRandom_length_of_nonneg _ _ _ _ hnn]
    simp [List.nil_append]
  · intro hall
    rw [hsel]
    simp only [List.nil_append, List.flatten_eq_nil_iff]
    intro l hl
    obtain ⟨s, hs, rfl⟩ := List.mem_map.mp hl
    obtain ⟨hc, ⟨count, hmem, hpos, hreq⟩, j, ign, hpick⟩ := stepsOk_mem_pick cfg rnd author
      authorGroup existing fromClause _ [] hsteps s hs
    have hle := hall (s.groupKey, count) hmem
    rw [← hc] at hle
    have hreq0 : s.required = 0 := by
      rw [hreq]
      simp only [max_eq_left_iff]
      omega
    rw [hpick, hreq0]
    exact pickRandom_nonpos _ _ _ _ le_rfl

/-- Concrete configuration for the C6 witness (spec scenario 3). -/
def c6Config : Config :=
  ⟨[⟨"backend", ["alice", "bob", "charlie", "diana"]⟩], none, none⟩

/-- Witness for C6: with clause `{backend: 2}` and existing reviewers
`[bob, charlie]` the single step requires `max 0 (2 - 2) = 0` picks and the
overall selection is empty. -/
theorem executeSelection_step_counts_witness :
    (∃ count,
      (((executeSelection c6Config (fun _ _ => 0) [("backend", 2)] "alice" (some "backend")
          ["bob", "charlie"]).2.get ⟨0, by decide⟩).groupKey, count) ∈ [("backend", 2)] ∧
      0 < count ∧
      ((executeSelection c6Config (fun _ _ => 0) [("backend", 2)] "alice" (some "backend")
          ["bob", "charlie"]).2.get ⟨0, by decide⟩).required =
        max 0 (count - ((["bob", "charlie"].filter (fun reviewer =>
          ((executeSelection c6Config (fun _ _ => 0) [("backend", 2)] "alice" (some "backend")
            ["bob", "charlie"]).2.get ⟨0, by decide⟩).candidates.contains
              reviewer)).length : Int)) ∧
      ((((executeSelection c6Config (fun _ _ => 0) [("backend", 2)] "alice" (some "backend")
          ["bob", "charlie"]).2.get ⟨0, by decide⟩).selected.length : Int) =
        min ((executeSelection c6Config (fun _ _ => 0) [("backend", 2)] "alice" (some "backend")
            ["bob", "charlie"]).2.get ⟨0, by decide⟩).required
          (((((executeSelection c6Config (fun _ _ => 0) [("backend", 2)] "alice" (some "backend")
            ["bob", "charlie"]).2.get ⟨0, by decide⟩).candidates.filter (fun x =>
              !(((((executeSelection c6Config (fun _ _ => 0) [("backend", 2)] "alice"
                (some "backend") ["bob", "charlie"]).2.take 0).map
                  (fun t => t.selected)).flatten ++
                    "alice" :: ["bob", "charlie"]).contains x))).toFinset.card : Int)))) ∧
    (executeSelection c6Config (fun _ _ => 0) [("backend", 2)] "alice" (some "backend")
      ["bob", "charlie"]).1 = [] :=
  ⟨(executeSelection_step_counts c6Config (fun _ _ => 0) [("backend", 2)] "alice"
      (some "backend") ["bob", "charlie"]).1 0 (by decide),
   (executeSelection_step_counts c6Config (fun _ _ => 0) [("backend", 2)] "alice"
      (some "backend") ["bob", "charlie"]).2 (by decide)⟩

theorem pickRandom_nil (rnd : Nat → Nat) (n : Int) (ignore : List String) :
    pickRandom rnd [] n ignore = [] := by
  rw [pickRandom, pickRandomGo]
  simp

/-- C7: the selection engine is a total function that degrades instead of
failing: a literal group-key token that names no configured group resolves to
an empty candidate pool, and every trace step picks at most the required
number of reviewers (zero when its pool is empty). -/
theorem selection_never_throws_degrades (cfg : Config) (rnd : Nat → Nat → Nat)
    (author : String) (existing : List String) (key : String) :
    (key ≠ "*" → startsWithBang key = false →
      cfg.groups.find? (fun g => g.name = key) = none →
      getCandidatesFromGroups cfg
        (resolveGroupSelection cfg key (getAuthorGroup cfg author)) = []) ∧
    (∀ s ∈ (selectReviewers cfg rnd author existing).process,
      ((s.selected.length : Int) ≤ s.required ∧ (s.candidates = [] → s.selected = []))) := by
  constructor
  · intro h1 h2 h3
    rw [resolveGroupSelection, if_neg h1]
    rw [if_neg (by simp [h2])]
    simp [getCandidatesFromGroups, h3]
  · intro s hs
    rw [selectReviewers] at hs
    cases hr : determineApplicableRule cfg author (getAuthorGroup cfg author) with
    | none =>
      rw [hr] at hs
      simp at hs
    | some ar =>
      rw [hr] at hs
      obtain ⟨hc, ⟨count, hmem, hpos, hreq⟩, j, ign, hpick⟩ := stepsOk_mem_pick cfg rnd
        author (getAuthorGroup cfg author) existing ar.rule _ []
        (executeSelectionGo_spec cfg rnd author (getAuthorGroup cfg author) existing
          ar.rule 1 []).2 s (by simpa [executeSelection] using hs)
      have hnn : (0 : Int) ≤ s.required := by
        rw [hreq]; exact le_max_left 0 _
      constructor
      · rw [hpick, pickRandom_length_of_nonneg _ _ _ _ hnn]
        exact min_le_left _ _
      · intro hcand
        rw [hpick, hcand]
        exact pickRandom_nil _ _ _

/-- Concrete configuration for the C7 witness: the clause names the group
`nope`, which does not exist. -/
def c7Config : Config :=
  ⟨[⟨"a", ["alice", "u"]⟩],
   some ⟨none, some [⟨"a", [("nope", 2)]⟩], none⟩, none⟩

/-- Witness for C7: the unknown token `nope` yields an empty pool, and the
resulting step selects nobody. -/
theorem selection_never_throws_degrades_witness :
    getCandidatesFromGroups c7Config
      (resolveGroupSelection c7Config "nope" (getAuthorGroup c7Config "alice")) = [] ∧
    ((((selectReviewers c7Config (fun _ _ => 0) "alice" []).process.get
      ⟨0, by decide⟩).selected.length : Int) ≤
        ((selectReviewers c7Config (fun _ _ => 0) "alice" []).process.get
          ⟨0, by decide⟩).required) ∧
    ((selectReviewers c7Config (fun _ _ => 0) "alice" []).process.get
      ⟨0, by decide⟩).selected = [] :=
  ⟨(selection_never_throws_degrades c7Config (fun _ _ => 0) "alice" [] "nope").1
      (by decide) (by decide) (by decide),
   ((selection_never_throws_degrades c7Config (fun _ _ => 0) "alice" [] "nope").2
      _ (List.get_mem _ _ _)).1,
   ((selection_never_throws_degrades c7Config (fun _ _ => 0) "alice" [] "nope").2
      _ (List.get_mem _ _ _)).2 (by decide)⟩

/-- Concrete configuration for C3: `alice` is in both `g1` and `g2`, the
configured multi-group strategy is `first`, and each group has its own
`by_author_group` rule. -/
def c3Config : Config :=
  ⟨[⟨"g1", ["alice", "bob"]⟩, ⟨"g2", ["alice", "carol"]⟩],
   some ⟨none, some [⟨"g1", [("g1", 1)]⟩, ⟨"g2", [("g2", 2)]⟩], none⟩,
   some "first"⟩

/-- C3 evidence: although the configuration declares the `first` strategy, the
rule resolver returns the merged rule `{g1: 1, g2: 2}` (tag `merged_groups`),
not the single-group resolution of the first group (`by_author_group` with
`{g1: 1}`); indeed the resolver's output is invariant under arbitrary changes
of the `when_author_in_multiple_groups` field, which it never reads. -/
theorem firstStrategy_ignored (strategy : Option String) :
    c3Config.when_author_in_multiple_groups = some "first" ∧
    determineApplicableRule c3Config "alice" (getAuthorGroup c3Config "alice") =
      some ⟨"merged_groups", none, [("g1", 1), ("g2", 2)], some ["g1", "g2"]⟩ ∧
    determineApplicableRule ⟨c3Config.groups, c3Config.selection_rules, strategy⟩ "alice"
      (getAuthorGroup ⟨c3Config.groups, c3Config.selection_rules, strategy⟩ "alice") =
      determineApplicableRule c3Config "alice" (getAuthorGroup c3Config "alice") := by
  refine ⟨rfl, by decide, rfl⟩

/-- Concrete configuration for C4: the username `u` belongs to both `A` and
`B`. -/
def c4Config : Config := ⟨[⟨"A", ["u"]⟩, ⟨"B", ["u"]⟩], none, none⟩

/-- C4 counterexample: building the pool for `[A, B]` yields `[u, u]` — the
source does not deduplicate, so the claimed "resulting pool contains no
duplicates" is false. -/
theorem getCandidatesFromGroups_dedup_counterexample :
    getCandidatesFromGroups c4Config ["A", "B"] = ["u", "u"] ∧
    ¬ (getCandidatesFromGroups c4Config ["A", "B"]).Nodup := by
  decide

/-- The candidate pool as described by the specification's words (without the
dedup step, which the source does not perform): per named group, the members of
the group of that name, or nothing when no group matches, concatenated in
order. -/
def candidatesSpec (cfg : Config) (groupNames : List String) : List String :=
  (groupNames.map (fun groupName =>
    ((cfg.groups.find? (fun g => g.name = groupName)).map (fun g => g.usernames)).getD [])).flatten

/-- C4 (amended): the pool concatenates the members of each named group in
order (each group's members in declared order) with no deduplication, and a
group name matching no configured group contributes nothing. -/
theorem getCandidatesFromGroups_concat (cfg : Config) (groupNames : List String)
    (groupName : String) :
    getCandidatesFromGroups cfg groupNames = candidatesSpec cfg groupNames ∧
    (cfg.groups.find? (fun g => g.name = groupName) = none →
      getCandidatesFromGroups cfg (groupName :: groupNames) =
        getCandidatesFromGroups cfg groupNames) := by
  constructor
  · induction groupNames with
    | nil => rfl
    | cons gn rest ih =>
      cases h : cfg.groups.find? (fun g => g.name = gn) with
      | none => simp [getCandidatesFromGroups, candidatesSpec, h, ih, candidatesSpec]
      | some g => simp [getCandidatesFromGroups, candidatesSpec, h, ih, candidatesSpec]
  · intro h
    simp [getCandidatesFromGroups, h]

/-- Witness for C4 (amended) at concrete inputs, with the unknown name `nope`
contributing nothing. -/
theorem getCandidatesFromGroups_concat_witness :
    getCandidatesFromGroups c4Config ["A", "B"] = candidatesSpec c4Config ["A", "B"] ∧
    getCandidatesFromGroups c4Config ("nope" :: ["A", "B"]) =
      getCandidatesFromGroups c4Config ["A", "B"] :=
  ⟨(getCandidatesFromGroups_concat c4Config ["A", "B"] "nope").1,
   (getCandidatesFromGroups_concat c4Config ["A", "B"] "nope").2 (by decide)⟩

/-- Concrete configuration for C8: four groups `A`, `B`, `C`, `D`. -/
def c8Config : Config := ⟨[⟨"A", []⟩, ⟨"B", []⟩, ⟨"C", []⟩, ⟨"D", []⟩], none, none⟩

/-- C8: `"*"` resolves to all configured group names in declaration order; a
`"!"` token resolves to the declaration-ordered sublist of configured group
names that are not in its comma-separated, whitespace-trimmed exclusion list;
`"!A,B"` over groups `{A, B, C, D}` gives exactly `[C, D]`. -/
theorem resolveGroupSelection_tokens (cfg : Config) (authorGroup : Option String)
    (token name : String) (hbang : startsWithBang token = true) :
    resolveGroupSelection cfg "*" authorGroup = cfg.groups.map (fun g => g.name) ∧
    (resolveGroupSelection cfg token authorGroup).Sublist
      (cfg.groups.map (fun g => g.name)) ∧
    (name ∈ resolveGroupSelection cfg token authorGroup ↔
      (name ∈ cfg.groups.map (fun g => g.name) ∧
        name ∉ (splitComma (token.data.drop 1)).map
          (fun piece => String.mk (trimChars piece)))) ∧
    resolveGroupSelection c8Config "!A,B" none = ["C", "D"] := by
  have htok : token ≠ "*" := by
    intro h
    rw [h] at hbang
    exact absurd hbang (by decide)
  refine ⟨?_, ?_, ?_, by decide⟩
  · rw [resolveGroupSelection, if_pos rfl]
  · rw [resolveGroupSelection, if_neg htok, if_pos hbang]
    exact List.filter_sublist _
  · rw [resolveGroupSelection, if_neg htok, if_pos hbang]
    simp [List.mem_filter]

/-- Witness for C8 at the concrete token `"!A,B"` and name `"C"`. -/
theorem resolveGroupSelection_tokens_witness :
    resolveGroupSelection c8Config "*" none = c8Config.groups.map (fun g => g.name) ∧
    (resolveGroupSelection c8Config "!A,B" none).Sublist
      (c8Config.groups.map (fun g => g.name)) ∧
    ("C" ∈ resolveGroupSelection c8Config "!A,B" none ↔
      ("C" ∈ c8Config.groups.map (fun g => g.name) ∧
        "C" ∉ (splitComma ("!A,B".data.drop 1)).map
          (fun piece => String.mk (trimChars piece)))) ∧
    resolveGroupSelection c8Config "!A,B" none = ["C", "D"] :=
  resolveGroupSelection_tokens c8Config none "!A,B" "C" (by decide)

/-- Concrete configuration for the C9 witness (spec scenario 4). -/
def c9Config : Config :=
  ⟨[⟨"backend", ["alice", "bob", "charlie"]⟩, ⟨"frontend", ["diana", "eve"]⟩],
   none, none⟩

/-- Witness for C9: the zero-count `backend` entry of
`{backend: 0, frontend: 2}` contributes nothing. -/
theorem executeSelection_skips_nonpositive_witness :
    executeSelection c9Config (fun _ _ => 0) [("backend", 0), ("frontend", 2)]
      "alice" (some "backend") [] =
      executeSelection c9Config (fun _ _ => 0) [("frontend", 2)]
        "alice" (some "backend") [] :=
  executeSelection_skips_nonpositive c9Config (fun _ _ => 0) "alice" (some "backend")
    [] [] [("frontend", 2)] "backend" 0 (by decide)

/-- The running-maximum update of `mergeRulesFromGroups`, applied to a prior
value (`none` when the key is fresh) and the values seen for the key, in
order. -/
def mergeVals (a : Option Int) (vs : List Int) : Option Int :=
  vs.foldl (fun acc v => some (max (acc.getD 0) v)) a

/-- The clause resolved for each author group, in the specification's words:
the group's own `by_author_group` rule if present, else the `default` clause,
else nothing. -/
def resolvedClauses (brs : List SelectionRule) (dflt : Option (List (String × Int)))
    (authorGroups : List String) : List (List (String × Int)) :=
  authorGroups.filterMap (fun groupName =>
    ((brs.find? (fun r => r.group = groupName)).map (fun r => r.fromClause)).orElse
      (fun _ => dflt))

/-- The maximum of a list of counts (`none` when no clause mentions the key). -/
def specMax : List Int → Option Int
  | [] => none
  | v :: vs => some (vs.foldl max v)

theorem lookup_setAssoc (key k : String) (v : Int) :
    ∀ m : List (String × Int),
      List.lookup key (setAssoc m k v) = if k = key then some v else List.lookup key m := by
  intro m
  induction m with
  | nil =>
    by_cases h : k = key
    · subst h; simp [setAssoc, List.lookup_cons]
    · simp [setAssoc, List.lookup_cons, beq_false_of_ne (fun e => h e.symm), h]
  | cons kv rest ih =>
    obtain ⟨a, b⟩ := kv
    by_cases h1 : a = k
    · subst h1
      by_cases h2 : a = key
      · subst h2
        simp [setAssoc, List.lookup_cons]
      · simp [setAssoc, List.lookup_cons, beq_false_of_ne (fun e => h2 e.symm), h2]
    · by_cases h2 : a = key
      · subst h2
        have hk : ¬ k = a := fun e => h1 e.symm
        simp [setAssoc, List.lookup_cons, h1, hk]
      · have hb : (key == a) = false := beq_false_of_ne (fun e => h2 e.symm)
        simp [setAssoc, List.lookup_cons, h1, hb, ih]

theorem lookup_mergeClause (key : String) :
    ∀ (fc : List (String × Int)) (acc : List (String × Int)),
      List.lookup key (mergeClause acc fc) =
        mergeVals (List.lookup key acc)
          (fc.filterMap (fun kv => if kv.1 = key then some kv.2 else none)) := by
  intro fc
  induction fc with
  | nil => intro acc; rfl
  | cons kv fc ih =>
    obtain ⟨a, b⟩ := kv
    intro acc
    by_cases h : a = key
    · subst h
      simp only [mergeClause, List.foldl_cons] at ih ⊢
      rw [ih, lookup_setAssoc]
      simp [mergeVals, List.filterMap_cons]
    · simp only [mergeClause, List.foldl_cons] at ih ⊢
      rw [ih, lookup_setAssoc]
      simp [mergeVals, List.filterMap_cons, h]

theorem mergeVals_append (a : Option Int) (vs ws : List Int) :
    mergeVals a (vs ++ ws) = mergeVals (mergeVals a vs) ws := by
  simp [mergeVals, List.foldl_append]

theorem lookup_foldMerge (key : String) :
    ∀ (clauses : List (List (String × Int))) (acc : List (String × Int)),
      List.lookup key (clauses.foldl mergeClause acc) =
        mergeVals (List.lookup key acc)
          ((clauses.map (fun fc =>
            fc.filterMap (fun kv => if kv.1 = key then some kv.2 else none))).flatten) := by
  intro clauses
  induction clauses with
  | nil => intro acc; rfl
  | cons fc clauses ih =>
    intro acc
    simp only [List.foldl_cons, List.map_cons, List.flatten_cons]
    rw [ih, lookup_mergeClause, mergeVals_append]

theorem mergeVals_some (vs : List Int) :
    ∀ x : Int, mergeVals (some x) vs = some (vs.foldl max x) := by
  induction vs with
  | nil => intro x; rfl
  | cons v vs ih =>
    intro x
    simp only [mergeVals, List.foldl_cons, Option.getD_some] at ih ⊢
    exact ih (x ⊔ v)

theorem mergeVals_none_nonneg :
    ∀ vs : List Int, (∀ v ∈ vs, 0 ≤ v) → mergeVals none vs = specMax vs := by
  intro vs h
  cases vs with
  | nil => rfl
  | cons v vs =>
    simp only [mergeVals, List.foldl_cons, Option.getD_none, specMax]
    rw [max_eq_right (h v (List.mem_cons_self v vs))]
    exact mergeVals_some vs v

theorem filterMap_key_eq_nil (key : String) :
    ∀ fc : List (String × Int), key ∉ fc.map Prod.fst →
      fc.filterMap (fun kv => if kv.1 = key then some kv.2 else none) = [] := by
  intro fc
  induction fc with
  | nil => intro _; rfl
  | cons kv fc ih =>
    intro h
    simp only [List.map_cons, List.mem_cons, not_or] at h
    have : ¬ kv.1 = key := fun e => h.1 e.symm
    simp [List.filterMap_cons, this, ih h.2]

theorem filterMap_key_eq_lookup (key : String) :
    ∀ fc : List (String × Int), (fc.map Prod.fst).Nodup →
      fc.filterMap (fun kv => if kv.1 = key then some kv.2 else none) =
        (List.lookup key fc).toList := by
  intro fc
  induction fc with
  | nil => intro _; rfl
  | cons kv fc ih =>
    intro h
    obtain ⟨a, b⟩ := kv
    simp only [List.map_cons, List.nodup_cons] at h
    by_cases ha : a = key
    · subst ha
      simp only [List.filterMap_cons, if_pos rfl]
      rw [List.lookup_cons]
      simp [filterMap_key_eq_nil a fc h.1]
    · have hb : (key == a) = false := beq_false_of_ne (fun e => ha e.symm)
      simp only [List.filterMap_cons, if_neg ha]
      rw [List.lookup_cons]
      simp [hb, ih h.2]

theorem lookup_mem (key : String) (v : Int) :
    ∀ l : List (String × Int), List.lookup key l = some v → (key, v) ∈ l := by
  intro l
  induction l with
  | nil => intro h; exact absurd h (by simp)
  | cons kv l ih =>
    obtain ⟨a, b⟩ := kv
    intro h
    rw [List.lookup_cons] at h
    by_cases ha : key = a
    · subst ha
      simp at h
      subst h
      exact List.mem_cons_self _ _
    · rw [show (key == a) = false from beq_false_of_ne ha] at h
      exact List.mem_cons_of_mem _ (ih h)

theorem flatten_map_toList {α β : Type} (f : α → Option β) :
    ∀ l : List α, (l.map (fun a => (f a).toList)).flatten = l.filterMap f := by
  intro l
  induction l with
  | nil => rfl
  | cons a l ih =>
    cases hf : f a <;> simp [List.filterMap_cons, hf, ih]


theorem foldl_resolve_eq (brs : List SelectionRule)
    (dflt : Option (List (String × Int))) :
    ∀ (gs : List String) (acc : List (String × Int)),
      gs.foldl (fun acc groupName =>
        match ((brs.find? (fun r => r.group = groupName)).map
          (fun r => r.fromClause)).orElse (fun _ => dflt) with
        | some fc => mergeClause acc fc
        | none => acc) acc =
      (resolvedClauses brs dflt gs).foldl mergeClause acc := by
  intro gs
  induction gs with
  | nil => intro acc; rfl
  | cons g gs ih =>
    intro acc
    simp only [List.foldl_cons, resolvedClauses, List.filterMap_cons]
    cases hc : ((brs.find? (fun r => r.group = g)).map
      (fun r => r.fromClause)).orElse (fun _ => dflt) with
    | none =>
      dsimp only
      simp only [resolvedClauses] at ih
      exact ih acc
    | some fc =>
      dsimp only
      simp only [List.foldl_cons]
      simp only [resolvedClauses] at ih
      exact ih (mergeClause acc fc)

/-- C5: for an author in several groups, each group resolves to its own
clause (its `by_author_group` rule, with `default` as fallback), and the
merged rule assigns to every key the maximum count over the resolved clauses
that mention it (no entry when none mentions it).  The hypotheses reflect a
validated configuration: counts are non-negative (`config.ts` rejects negative
counts) and clause keys are unique (JS object keys are unique). -/
theorem mergeRules_per_key_max (cfg : Config) (rules : SelectionRules)
    (brs : List SelectionRule) (author key : String)
    (hrules : cfg.selection_rules = some rules)
    (hbrs : rules.by_author_group = some brs)
    (hnn : ∀ r ∈ brs, ∀ kv ∈ r.fromClause, 0 ≤ kv.2)
    (hnnd : ∀ d, rules.default = some d → ∀ kv ∈ d, 0 ≤ kv.2)
    (hkey : ∀ r ∈ brs, (r.fromClause.map Prod.fst).Nodup)
    (hkeyd : ∀ d, rules.default = some d → (d.map Prod.fst).Nodup)
    (_hmulti : 1 < (getAuthorGroups cfg author).length) :
    (mergeRulesFromGroups cfg (getAuthorGroups cfg author)).bind
        (fun m => List.lookup key m) =
      specMax ((resolvedClauses brs rules.default (getAuthorGroups cfg author)).filterMap
        (fun clause => List.lookup key clause)) := by
  have hclause_facts : ∀ clause ∈ resolvedClauses brs rules.default
      (getAuthorGroups cfg author),
      (∀ kv ∈ clause, 0 ≤ kv.2) ∧ (clause.map Prod.fst).Nodup := by
    intro clause hcl
    obtain ⟨g, hg, hres⟩ := List.mem_filterMap.mp hcl
    cases hfind : brs.find? (fun r => r.group = g) with
    | some r =>
      have hr : r ∈ brs := List.mem_of_find?_eq_some hfind
      rw [hfind] at hres
      simp only [Option.map, Option.orElse] at hres
      obtain rfl := Option.some_injective _ hres
      exact ⟨hnn r hr, hkey r hr⟩
    | none =>
      rw [hfind] at hres
      simp only [Option.map, Option.orElse] at hres
      exact ⟨hnnd clause hres, hkeyd clause hres⟩
  simp only [mergeRulesFromGroups, hrules, hbrs]
  rw [foldl_resolve_eq]
  have hbind : ∀ m : List (String × Int),
      (if m.length > 0 then some m else none).bind (fun m => List.lookup key m) =
        List.lookup key m := by
    intro m
    split
    · rfl
    · next h =>
      cases m with
      | nil => rfl
      | cons a l => simp at h
  rw [hbind, lookup_foldMerge]
  rw [show List.lookup key ([] : List (String × Int)) = none from rfl]
  have hmapeq : (resolvedClauses brs rules.default (getAuthorGroups cfg author)).map
      (fun fc => fc.filterMap (fun kv => if kv.1 = key then some kv.2 else none)) =
      (resolvedClauses brs rules.default (getAuthorGroups cfg author)).map
        (fun fc => (List.lookup key fc).toList) := by
    apply List.map_congr_left
    intro fc hfc
    exact filterMap_key_eq_lookup key fc (hclause_facts fc hfc).2
  rw [hmapeq, flatten_map_toList]
  apply mergeVals_none_nonneg
  intro v hv
  obtain ⟨clause, hcl, hlk⟩ := List.mem_filterMap.mp hv
  exact (hclause_facts clause hcl).1 (key, v) (lookup_mem key v clause hlk)

/-- Concrete configuration for the C5 witness: `alice` is in `A` and `B`,
with rules `A → {x: 1, y: 2}` and `B → {x: 3}`. -/
def c5Config : Config :=
  ⟨[⟨"A", ["alice"]⟩, ⟨"B", ["alice"]⟩, ⟨"x", ["u"]⟩, ⟨"y", ["v"]⟩],
   some ⟨none, some [⟨"A", [("x", 1), ("y", 2)]⟩, ⟨"B", [("x", 3)]⟩], none⟩,
   none⟩

/-- Witness for C5 at the key `x` of the spec's merge example: the merged
clause takes the per-key maximum (`{x: 3, y: 2}`). -/
theorem mergeRules_per_key_max_witness :
    (mergeRulesFromGroups c5Config (getAuthorGroups c5Config "alice")).bind
        (fun m => List.lookup "x" m) =
      specMax ((resolvedClauses [⟨"A", [("x", 1), ("y", 2)]⟩, ⟨"B", [("x", 3)]⟩] none
        (getAuthorGroups c5Config "alice")).filterMap
          (fun clause => List.lookup "x" clause)) :=
  mergeRules_per_key_max c5Config
    ⟨none, some [⟨"A", [("x", 1), ("y", 2)]⟩, ⟨"B", [("x", 3)]⟩], none⟩
    [⟨"A", [("x", 1), ("y", 2)]⟩, ⟨"B", [("x", 3)]⟩] "alice" "x" rfl rfl
    (by decide) (fun d h => nomatch h) (by decide) (fun d h => nomatch h) (by decide)
end ReviewerLottery
